import Mathlib

/-!
Verification of the Burrows-Wheeler transform implementation in
`src/bwt_python.py`.  Strings are embedded as `List Char`; Python's
lexicographic string comparison is the lexicographic order on the
character lists, and Python's `sorted` is modelled by `List.mergeSort`
(both produce the unique sorted permutation of the input, since the
order is total and antisymmetric).
-/

namespace BWT

/-- The end-of-string marker used by the program: the character `'$'`. -/
def sentinel : Char := '$'

/-- Python string comparison `a <= b`, lexicographic by code point. -/
def lexLe : List Char → List Char → Bool
  | [], _ => true
  | _ :: _, [] => false
  | a :: as, b :: bs => if a < b then true else if b < a then false else lexLe as bs

/-- Python `sorted` on a list of strings.  Since the order is total,
transitive and antisymmetric, every correct sort returns the same list (the
sorted permutation, `sortedLex_unique`); insertion sort is used because it is
structurally recursive, so terms involving it reduce definitionally. -/
def sortLex (l : List (List Char)) : List (List Char) :=
  List.insertionSort (fun a b => lexLe a b) l

/-- The effective input of `bwt_transform`: the
`if '$' not in s: s = s + '$'` preprocessing step of the source. -/
def effectiveInput (x : List Char) : List Char :=
  if sentinel ∈ x then x else x ++ [sentinel]

/-- `rotations = [s[i:] + s[:i] for i in range(len(s))]` from the source. -/
def rotations (s : List Char) : List (List Char) :=
  (List.range s.length).map (fun i => s.drop i ++ s.take i)

/-- `bwt_transform` from `src/bwt_python.py`.  `sorted_rotations.index(s)` is
`List.indexOf`; `rotation[-1]` is modelled by `getLastD` (every rotation of the
effective input is nonempty, so the default is never read). -/
def bwt_transform (x : List Char) : List Char × Nat :=
  let s := effectiveInput x
  let sorted_rotations := sortLex (rotations s)
  (sorted_rotations.map (fun r => r.getLastD sentinel), sorted_rotations.indexOf s)

/-- One pass of the `for i in range(len(transformed))` loop body in
`bwt_inverse`: prepend `transformed` columnwise, then sort the rows. -/
def bwtStep (transformed : List Char) (table : List (List Char)) : List (List Char) :=
  sortLex (List.zipWith (fun c row => c :: row) transformed table)

/-- The table built by `bwt_inverse` after all `len(transformed)` iterations,
starting from `[''] * len(transformed)`. -/
def bwtTable (transformed : List Char) : List (List Char) :=
  (bwtStep transformed)^[transformed.length] (List.replicate transformed.length [])

/-- Python list indexing `l[i]` with an `int` index: nonnegative indices address
from the front, indices in `[-len(l), 0)` address from the back, and anything
else raises `IndexError`, modelled as `none`. -/
def pyGet {α : Type} (l : List α) (i : Int) : Option α :=
  if 0 ≤ i ∧ i < l.length then l[i.toNat]?
  else if -(l.length : Int) ≤ i ∧ i < 0 then l[((l.length : Int) + i).toNat]?
  else none

/-- `bwt_inverse` from `src/bwt_python.py`; the final `table[index]` is Python
list indexing. -/
def bwt_inverse (transformed : List Char) (index : Int) : Option (List Char) :=
  pyGet (bwtTable transformed) index

/-! ### The lexicographic order is total, transitive and antisymmetric -/

theorem lexLe_total (a b : List Char) : lexLe a b || lexLe b a := by
  induction a generalizing b with
  | nil => simp [lexLe]
  | cons x xs ih =>
    cases b with
    | nil => simp [lexLe]
    | cons y ys =>
      simp only [lexLe]
      rcases lt_trichotomy x y with h | h | h
      · simp [h]
      · subst h
        simp only [lt_irrefl, if_false]
        exact ih ys
      · simp [h, lt_asymm h]

theorem lexLe_trans : ∀ (a b c : List Char), lexLe a b → lexLe b c → lexLe a c
  | [], _, _, _, _ => by simp [lexLe]
  | _ :: _, [], _, hab, _ => by simp [lexLe] at hab
  | _ :: _, _ :: _, [], _, hbc => by simp [lexLe] at hbc
  | x :: xs, y :: ys, z :: zs, hab, hbc => by
    simp only [lexLe] at hab hbc ⊢
    rcases lt_trichotomy x y with hxy | hxy | hxy
    · rcases lt_trichotomy y z with hyz | hyz | hyz
      · simp [lt_trans hxy hyz]
      · subst hyz; simp [hxy]
      · simp [hyz, lt_asymm hyz] at hbc
    · subst hxy
      rcases lt_trichotomy x z with hxz | hxz | hxz
      · simp [hxz]
      · subst hxz
        simp only [lt_irrefl, if_false] at hab hbc ⊢
        exact lexLe_trans xs ys zs hab hbc
      · simp [hxz, lt_asymm hxz] at hbc
    · simp [hxy, lt_asymm hxy] at hab

theorem lexLe_antisymm : ∀ {a b : List Char}, lexLe a b → lexLe b a → a = b
  | [], [], _, _ => rfl
  | [], _ :: _, _, hba => by simp [lexLe] at hba
  | _ :: _, [], hab, _ => by simp [lexLe] at hab
  | x :: xs, y :: ys, hab, hba => by
    simp only [lexLe] at hab hba
    rcases lt_trichotomy x y with hxy | hxy | hxy
    · simp [hxy, lt_asymm hxy] at hba
    · subst hxy
      simp only [lt_irrefl, if_false] at hab hba
      exact congrArg (x :: ·) (lexLe_antisymm hab hba)
    · simp [hxy, lt_asymm hxy] at hab

theorem sortLex_perm (l : List (List Char)) : (sortLex l).Perm l :=
  List.perm_insertionSort _ l

theorem sortLex_sorted (l : List (List Char)) :
    (sortLex l).Pairwise (fun a b => lexLe a b) := by
  haveI : IsTotal (List Char) (fun a b => lexLe a b = true) :=
    ⟨fun a b => by simpa [Bool.or_eq_true] using lexLe_total a b⟩
  haveI : IsTrans (List Char) (fun a b => lexLe a b = true) :=
    ⟨fun a b c hab hbc => lexLe_trans a b c hab hbc⟩
  exact List.sorted_insertionSort _ l

/-- Two sorted lists with the same multiset of rows are equal. -/
theorem sortedLex_unique {l₁ l₂ : List (List Char)} (hp : l₁.Perm l₂)
    (h₁ : l₁.Pairwise (fun a b => lexLe a b))
    (h₂ : l₂.Pairwise (fun a b => lexLe a b)) : l₁ = l₂ :=
  haveI : IsAntisymm (List Char) (fun a b => lexLe a b = true) :=
    ⟨fun _ _ => lexLe_antisymm⟩
  List.eq_of_perm_of_sorted hp h₁ h₂

/-! ### Rotation algebra -/

/-- Right rotation by one: the last character moved to the front.  Applied to a
rotation of `s` at offset `k` it yields the rotation at offset `k - 1 (mod n)`. -/
def rotR (r : List Char) : List Char := r.getLastD sentinel :: r.dropLast

theorem rotR_eq_rotate (r : List Char) (h : r ≠ []) :
    rotR r = r.rotate (r.length - 1) := by
  have hn : 0 < r.length := List.length_pos.2 h
  have h1 : r.length - 1 < r.length := by omega
  rw [List.rotate_eq_drop_append_take (by omega),
    List.drop_eq_getElem_cons h1, Nat.sub_add_cancel hn, List.drop_length,
    ← List.dropLast_eq_take]
  simp [rotR, List.getLastD_eq_getLast?, List.getLast?_eq_getLast r h,
    List.getLast_eq_getElem]

theorem map_range_rotate {α : Type} (f : ℕ → α) (n k : ℕ) :
    (List.map f (List.range n)).rotate k =
      List.map (fun i => f ((i + k) % n)) (List.range n) := by
  apply List.ext_getElem
  · simp
  · intro i h1 h2
    rw [List.getElem_rotate]
    simp [List.getElem_map, List.getElem_range]

theorem rotations_eq_map_rotate (s : List Char) :
    rotations s = (List.range s.length).map (fun i => s.rotate i) := by
  unfold rotations
  apply List.map_congr_left
  intro i hi
  rw [List.rotate_eq_drop_append_take (le_of_lt (List.mem_range.1 hi))]

theorem length_rotations (s : List Char) : (rotations s).length = s.length := by
  simp [rotations]

theorem length_of_mem_rotations {s r : List Char} (h : r ∈ rotations s) :
    r.length = s.length := by
  rw [rotations_eq_map_rotate] at h
  obtain ⟨i, _, rfl⟩ := List.mem_map.1 h
  exact List.length_rotate s i

theorem self_mem_rotations {s : List Char} (h : s ≠ []) : s ∈ rotations s := by
  rw [rotations_eq_map_rotate]
  exact List.mem_map.2 ⟨0, List.mem_range.2 (List.length_pos.2 h), s.rotate_zero⟩

theorem map_rotR_rotations (s : List Char) (h : s ≠ []) :
    (rotations s).map rotR = (rotations s).rotate (s.length - 1) := by
  have hn : 0 < s.length := List.length_pos.2 h
  rw [rotations_eq_map_rotate, List.map_map, map_range_rotate]
  apply List.map_congr_left
  intro i hi
  have hr : s.rotate i ≠ [] :=
    List.length_pos.1 (by rw [List.length_rotate]; exact hn)
  show rotR (s.rotate i) = s.rotate ((i + (s.length - 1)) % s.length)
  rw [rotR_eq_rotate _ hr, List.length_rotate, List.rotate_rotate]
  exact (List.rotate_mod s _).symm

theorem map_rotR_perm (s : List Char) (h : s ≠ []) :
    ((rotations s).map rotR).Perm (rotations s) := by
  rw [map_rotR_rotations s h]
  exact List.rotate_perm _ _

theorem headI_eq_getElem (l : List Char) (h : 0 < l.length) : l.headI = l[0] := by
  cases l with
  | nil => simp at h
  | cons a t => rfl

theorem map_headI_rotations (s : List Char) : (rotations s).map List.headI = s := by
  rw [rotations_eq_map_rotate, List.map_map]
  apply List.ext_getElem
  · simp
  · intro i h1 h2
    simp only [List.getElem_map, List.getElem_range, Function.comp_apply]
    have hlen : 0 < (s.rotate i).length := by rw [List.length_rotate]; omega
    rw [headI_eq_getElem _ hlen, List.getElem_rotate]
    simp [Nat.mod_eq_of_lt h2]

theorem map_getLastD_eq (l : List (List Char)) :
    l.map (fun r => r.getLastD sentinel) = (l.map rotR).map List.headI := by
  rw [List.map_map]
  rfl

/-! ### Truncation respects the order -/

theorem lexLe_take : ∀ (a b : List Char) (i : ℕ),
    lexLe a b → lexLe (a.take i) (b.take i)
  | [], _, _, _ => by simp [lexLe]
  | _ :: _, [], _, hab => by simp [lexLe] at hab
  | _ :: _, _ :: _, 0, _ => by simp [lexLe]
  | a :: as, b :: bs, i + 1, hab => by
    simp only [List.take_succ_cons, lexLe] at hab ⊢
    rcases lt_trichotomy a b with h | h | h
    · simp [h]
    · subst h
      simp only [lt_irrefl, if_false] at hab ⊢
      exact lexLe_take as bs i hab
    · simp [h, lt_asymm h] at hab

theorem sorted_map_take {l : List (List Char)} (i : ℕ)
    (h : l.Pairwise (fun a b => lexLe a b)) :
    (l.map (fun r => r.take i)).Pairwise (fun a b => lexLe a b) :=
  h.map _ (fun a b hab => lexLe_take a b i hab)

theorem take_rotR {r : List Char} {i : ℕ} (hi : i < r.length) :
    (rotR r).take (i + 1) = r.getLastD sentinel :: r.take i := by
  simp only [rotR, List.take_succ_cons]
  rw [List.dropLast_eq_take, List.take_take, Nat.min_eq_left (by omega)]

/-! ### The inverse's loop invariant -/

theorem length_sortLex_rotations (s : List Char) :
    (sortLex (rotations s)).length = s.length := by
  rw [(sortLex_perm (rotations s)).length_eq, length_rotations]

theorem length_of_mem_sortLex_rotations {s r : List Char}
    (h : r ∈ sortLex (rotations s)) : r.length = s.length :=
  length_of_mem_rotations ((sortLex_perm (rotations s)).mem_iff.1 h)

/-- After `i` passes of the inverse's loop, run on the last column of the
sorted rotation table of `s`, the table holds exactly the first `i` characters
of every row of that sorted rotation table, in order. -/
theorem bwtTable_invariant (s : List Char) (h : s ≠ []) :
    ∀ i, i ≤ s.length →
      (bwtStep ((sortLex (rotations s)).map (fun r => r.getLastD sentinel)))^[i]
          (List.replicate s.length []) =
        (sortLex (rotations s)).map (fun r => r.take i) := by
  intro i
  induction i with
  | zero =>
    intro _
    simp only [Function.iterate_zero, id_eq]
    symm
    rw [List.eq_replicate_iff]
    refine ⟨by simp [length_sortLex_rotations], ?_⟩
    intro b hb
    obtain ⟨r, _, rfl⟩ := List.mem_map.1 hb
    simp
  | succ i ih =>
    intro hi
    have hi' : i < s.length := by omega
    rw [Function.iterate_succ_apply', ih (le_of_lt hi')]
    show sortLex _ = _
    have hz : List.zipWith (fun c row => c :: row)
        ((sortLex (rotations s)).map (fun r => r.getLastD sentinel))
        ((sortLex (rotations s)).map (fun r => r.take i)) =
        (sortLex (rotations s)).map (fun r => (rotR r).take (i + 1)) := by
      rw [List.zipWith_map, List.zipWith_same]
      apply List.map_congr_left
      intro r hr
      have hlen : r.length = s.length := length_of_mem_sortLex_rotations hr
      rw [take_rotR (by omega)]
    rw [hz]
    have hperm : ((sortLex (rotations s)).map (fun r => (rotR r).take (i + 1))).Perm
        ((sortLex (rotations s)).map (fun r => r.take (i + 1))) := by
      have h1 : ((sortLex (rotations s)).map rotR).Perm (sortLex (rotations s)) :=
        (((sortLex_perm (rotations s)).map rotR).trans (map_rotR_perm s h)).trans
          (sortLex_perm (rotations s)).symm
      have h2 := h1.map (fun r => r.take (i + 1))
      rw [List.map_map] at h2
      exact h2
    exact sortedLex_unique ((sortLex_perm _).trans hperm)
      (sortLex_sorted _) (sorted_map_take (i + 1) (sortLex_sorted _))

/-- Run on the last column of the sorted rotation table of a nonempty `s`, the
inverse's table construction rebuilds the sorted rotation table itself. -/
theorem bwtTable_of_transform (s : List Char) (h : s ≠ []) :
    bwtTable ((sortLex (rotations s)).map (fun r => r.getLastD sentinel)) =
      sortLex (rotations s) := by
  unfold bwtTable
  rw [List.length_map, length_sortLex_rotations,
    bwtTable_invariant s h s.length le_rfl]
  have : ∀ r ∈ sortLex (rotations s), r.take s.length = r := by
    intro r hr
    rw [← length_of_mem_sortLex_rotations hr]
    exact List.take_length r
  exact (List.map_congr_left this).trans (List.map_id _)

/-! ### The transform's output, unfolded -/

theorem effectiveInput_ne_nil (x : List Char) : effectiveInput x ≠ [] := by
  unfold effectiveInput
  split
  · next hmem =>
    intro hc
    rw [hc] at hmem
    exact List.not_mem_nil _ hmem
  · simp

theorem bwt_transform_fst (x : List Char) :
    (bwt_transform x).1 =
      (sortLex (rotations (effectiveInput x))).map (fun r => r.getLastD sentinel) := rfl

theorem bwt_transform_snd (x : List Char) :
    (bwt_transform x).2 =
      (sortLex (rotations (effectiveInput x))).indexOf (effectiveInput x) := rfl

theorem indexOf_sortLex_lt (s : List Char) (h : s ≠ []) :
    (sortLex (rotations s)).indexOf s < (sortLex (rotations s)).length := by
  apply List.findIdx_lt_length_of_exists
  exact ⟨s, (sortLex_perm _).mem_iff.2 (self_mem_rotations h), by simp⟩

theorem getElem_indexOf_sortLex (s : List Char)
    (hlt : (sortLex (rotations s)).indexOf s < (sortLex (rotations s)).length) :
    (sortLex (rotations s))[(sortLex (rotations s)).indexOf s] = s :=
  eq_of_beq (List.findIdx_getElem (w := hlt))

/-- Core round-trip fact, no hypotheses: on every input, the inverse applied to
the transform's output returns the effective input. -/
theorem bwt_roundtrip (x : List Char) :
    bwt_inverse (bwt_transform x).1 ((bwt_transform x).2 : Int) =
      some (effectiveInput x) := by
  have hne : effectiveInput x ≠ [] := effectiveInput_ne_nil x
  rw [bwt_transform_fst, bwt_transform_snd]
  unfold bwt_inverse
  rw [bwtTable_of_transform _ hne]
  have hlt : (sortLex (rotations (effectiveInput x))).indexOf (effectiveInput x) <
      (sortLex (rotations (effectiveInput x))).length :=
    indexOf_sortLex_lt _ hne
  unfold pyGet
  rw [if_pos ⟨Int.ofNat_nonneg _, by exact_mod_cast hlt⟩, Int.toNat_ofNat,
    List.getElem?_eq_getElem hlt]
  exact congrArg some (getElem_indexOf_sortLex _ hlt)

/-! ### Uniqueness of the sentinel position and distinctness of rotations -/

theorem count_effectiveInput {x : List Char} (h : x.count sentinel ≤ 1) :
    (effectiveInput x).count sentinel = 1 := by
  unfold effectiveInput
  split
  · next hmem =>
    have := List.count_pos_iff.2 hmem
    omega
  · next hmem =>
    rw [List.count_append, List.count_eq_zero.2 hmem]
    simp

theorem sentinel_pos_unique : ∀ {s : List Char}, s.count sentinel = 1 →
    ∃ p, ∃ hp : p < s.length, s[p] = sentinel ∧
      ∀ q, (hq : q < s.length) → s[q] = sentinel → q = p
  | [], hc => by simp at hc
  | c :: t, hc => by
    rw [List.count_cons] at hc
    by_cases hcs : c = sentinel
    · refine ⟨0, by simp, by simpa using hcs, ?_⟩
      have ht : sentinel ∉ t := by
        rw [← List.count_eq_zero]
        simp [hcs] at hc
        omega
      rintro (_ | q) hq hqs
      · rfl
      · exact absurd (hqs ▸ List.getElem_mem _) ht
    · have hc' : t.count sentinel = 1 := by
        simp [hcs] at hc
        omega
      obtain ⟨p, hp, hps, huniq⟩ := sentinel_pos_unique hc'
      refine ⟨p + 1, by simpa using hp, by simpa using hps, ?_⟩
      rintro (_ | q) hq hqs
      · exact absurd (by simpa using hqs) hcs
      · simp only [List.getElem_cons_succ] at hqs
        exact congrArg (· + 1) (huniq q (by simpa using hq) hqs)

theorem rotate_injOn_of_count_one {s : List Char} (hc : s.count sentinel = 1)
    {i j : ℕ} (hi : i < s.length) (hj : j < s.length)
    (hij : s.rotate i = s.rotate j) : i = j := by
  obtain ⟨p, hp, hps, huniq⟩ := sentinel_pos_unique hc
  have hn : 0 < s.length := by omega
  have hmn : (p + s.length - i) % s.length < s.length := Nat.mod_lt _ hn
  have hmi : ((p + s.length - i) % s.length + i) % s.length = p := by
    rw [Nat.mod_add_mod, show p + s.length - i + i = p + s.length by omega,
      Nat.add_mod_right, Nat.mod_eq_of_lt hp]
  have h1 : (s.rotate i)[(p + s.length - i) % s.length]? = s[p]? := by
    rw [List.getElem?_rotate hmn, hmi]
  rw [hij, List.getElem?_rotate hmn] at h1
  have hlt : ((p + s.length - i) % s.length + j) % s.length < s.length :=
    Nat.mod_lt _ hn
  rw [List.getElem?_eq_getElem hlt, List.getElem?_eq_getElem hp] at h1
  have hq : ((p + s.length - i) % s.length + j) % s.length = p :=
    huniq _ hlt (by rw [Option.some_inj.1 h1]; exact hps)
  have hmod : i ≡ j [MOD s.length] :=
    Nat.ModEq.add_left_cancel' ((p + s.length - i) % s.length) (hmi.trans hq.symm)
  have := hmod
  unfold Nat.ModEq at this
  rw [Nat.mod_eq_of_lt hi, Nat.mod_eq_of_lt hj] at this
  exact this

theorem rotations_nodup {s : List Char} (hc : s.count sentinel = 1) :
    (rotations s).Nodup := by
  rw [rotations_eq_map_rotate]
  refine List.Nodup.map_on ?_ (List.nodup_range _)
  intro i hi j hj hij
  exact rotate_injOn_of_count_one hc (List.mem_range.1 hi) (List.mem_range.1 hj) hij

/-! ### Shared facts about the transform's two components and the table size -/

/-- The transformed string is a permutation of the effective input. -/
theorem transform_fst_perm (x : List Char) :
    ((bwt_transform x).1).Perm (effectiveInput x) := by
  rw [bwt_transform_fst, map_getLastD_eq]
  have h1 : ((sortLex (rotations (effectiveInput x))).map rotR).Perm
      ((rotations (effectiveInput x)).map rotR) := (sortLex_perm _).map rotR
  have h2 := (h1.trans (map_rotR_perm _ (effectiveInput_ne_nil x))).map List.headI
  rwa [map_headI_rotations] at h2

/-- The returned index is a valid row index of the sorted rotation table. -/
theorem transform_snd_lt (x : List Char) :
    (bwt_transform x).2 < (effectiveInput x).length := by
  rw [bwt_transform_snd]
  have := indexOf_sortLex_lt _ (effectiveInput_ne_nil x)
  rwa [length_sortLex_rotations] at this

theorem length_bwtStep (t : List Char) (table : List (List Char)) :
    (bwtStep t table).length = min t.length table.length := by
  simp [bwtStep, sortLex]

theorem length_bwtTable_iterate (t : List Char) :
    ∀ i, ((bwtStep t)^[i] (List.replicate t.length [])).length = t.length
  | 0 => by simp
  | i + 1 => by
    rw [Function.iterate_succ_apply', length_bwtStep, length_bwtTable_iterate t i]
    simp

/-- The inverse's table always has as many rows as `transformed` has symbols. -/
theorem length_bwtTable (t : List Char) : (bwtTable t).length = t.length :=
  length_bwtTable_iterate t t.length

/-! ### Claims -/

/-- C1: Round-trip law: for every non-empty input sequence `x` containing at
most one occurrence of the sentinel `'$'`, `bwt_inverse` applied to the pair
returned by `bwt_transform x` yields `effectiveInput x`, which is `x` with
`'$'` appended when `x` contains no `'$'` and `x` itself otherwise. -/
theorem C1_round_trip (x : List Char) (_hne : x ≠ [])
    (_hcount : x.count sentinel ≤ 1) :
    bwt_inverse (bwt_transform x).1 ((bwt_transform x).2 : Int) =
      some (effectiveInput x) :=
  bwt_roundtrip x

/-- Witness for C1 at the concrete input `"BANANA"`. -/
theorem C1_round_trip_witness :
    "BANANA".toList ≠ [] ∧ "BANANA".toList.count sentinel ≤ 1 ∧
      bwt_inverse (bwt_transform "BANANA".toList).1
          ((bwt_transform "BANANA".toList).2 : Int) =
        some (effectiveInput "BANANA".toList) :=
  ⟨by decide, by decide, C1_round_trip "BANANA".toList (by decide) (by decide)⟩

/-- C2: Forward reference definition: for every non-empty `x` with at most one
`'$'`, with `s` the effective sequence, `bwt_transform` returns
`(transformed, index)` such that, for the lexicographically sorted list `T` of
all cyclic rotations of `s`, `transformed` lists the last symbol of each row of
`T` in order, and `index` is the (unique) position of `s` itself in `T`. -/
theorem C2_forward_reference (x : List Char) (_hne : x ≠ [])
    (hcount : x.count sentinel ≤ 1) :
    ∃ T : List (List Char),
      T.Perm (rotations (effectiveInput x)) ∧
      T.Pairwise (fun a b => lexLe a b) ∧
      (bwt_transform x).1 = T.map (fun r => r.getLastD sentinel) ∧
      ∃ hlt : (bwt_transform x).2 < T.length,
        T[(bwt_transform x).2] = effectiveInput x ∧
        ∀ j, (hj : j < T.length) → T[j] = effectiveInput x →
          j = (bwt_transform x).2 := by
  have hc1 : (effectiveInput x).count sentinel = 1 := count_effectiveInput hcount
  have hne' : effectiveInput x ≠ [] := effectiveInput_ne_nil x
  have hlt : (sortLex (rotations (effectiveInput x))).indexOf (effectiveInput x) <
      (sortLex (rotations (effectiveInput x))).length := indexOf_sortLex_lt _ hne'
  have hget := getElem_indexOf_sortLex (effectiveInput x) hlt
  have hnd : (sortLex (rotations (effectiveInput x))).Nodup :=
    (sortLex_perm _).nodup_iff.2 (rotations_nodup hc1)
  refine ⟨sortLex (rotations (effectiveInput x)), sortLex_perm _, sortLex_sorted _,
    bwt_transform_fst x, ?_⟩
  rw [bwt_transform_snd]
  refine ⟨hlt, hget, ?_⟩
  intro j hj hjs
  exact hnd.getElem_inj_iff.1 (hjs.trans hget.symm)

/-- Witness for C2 at the concrete input `"BANANA$"`. -/
theorem C2_forward_reference_witness :
    "BANANA$".toList ≠ [] ∧ "BANANA$".toList.count sentinel ≤ 1 ∧
      (∃ T : List (List Char),
        T.Perm (rotations (effectiveInput "BANANA$".toList)) ∧
        T.Pairwise (fun a b => lexLe a b) ∧
        (bwt_transform "BANANA$".toList).1 = T.map (fun r => r.getLastD sentinel) ∧
        ∃ hlt : (bwt_transform "BANANA$".toList).2 < T.length,
          T[(bwt_transform "BANANA$".toList).2] = effectiveInput "BANANA$".toList ∧
          ∀ j, (hj : j < T.length) → T[j] = effectiveInput "BANANA$".toList →
            j = (bwt_transform "BANANA$".toList).2) :=
  ⟨by decide, by decide, C2_forward_reference "BANANA$".toList (by decide) (by decide)⟩

/-- C3: Permutation law: for every input `x`, the multiset of symbols of the
transformed string returned by `bwt_transform x` equals the multiset of symbols
of `effectiveInput x` (list permutation is multiset equality). -/
theorem C3_permutation (x : List Char) :
    ((bwt_transform x).1).Perm (effectiveInput x) :=
  transform_fst_perm x

/-- C4: Index bounds: for every input `x` whose effective sequence has length
`n`, the index returned by `bwt_transform x` satisfies `0 ≤ index < n` (the
index is a natural number, so the lower bound is by construction). -/
theorem C4_index_bounds (x : List Char) :
    0 ≤ (bwt_transform x).2 ∧ (bwt_transform x).2 < (effectiveInput x).length :=
  ⟨Nat.zero_le _, transform_snd_lt x⟩

/-- C5: Worked example: `bwt_transform "BANANA$" = ("ANNB$AA", 4)` and
`bwt_inverse "ANNB$AA" 4 = "BANANA$"`. -/
theorem C5_worked_example :
    bwt_transform "BANANA$".toList = ("ANNB$AA".toList, 4) ∧
      bwt_inverse "ANNB$AA".toList 4 = some "BANANA$".toList := by
  constructor
  · decide
  · decide

/-- C6 counterexample: `bwt_transform` applied to the empty sequence does not
fail: it returns the pair `("$", 0)`. -/
theorem C6_counterexample : bwt_transform [] = (['$'], 0) := by decide

/-- C6 (amended): `bwt_transform` applied to the empty sequence signals no
EmptyInput error; the sentinel is appended and the transform succeeds, with
transformed string `"$"` and index `0`. -/
theorem C6_empty_accepted :
    (bwt_transform []).1 = ['$'] ∧ (bwt_transform []).2 = 0 := by
  exact ⟨by decide, by decide⟩

/-- C7 counterexample: the input `"$$"` contains the sentinel twice, yet
`bwt_transform` returns the result `("$$", 0)` instead of failing. -/
theorem C7_counterexample : bwt_transform ['$', '$'] = (['$', '$'], 0) := by
  decide

/-- C7 (amended): a caller-supplied input containing the sentinel more than
once is not rejected: `bwt_transform` processes it as-is (no sentinel is
appended), returning a transformed string that is a permutation of the input
itself together with an in-range index. -/
theorem C7_multiple_sentinels (x : List Char) (h : 2 ≤ x.count sentinel) :
    ((bwt_transform x).1).Perm x ∧ (bwt_transform x).2 < x.length := by
  have hmem : sentinel ∈ x := List.count_pos_iff.1 (by omega)
  have heff : effectiveInput x = x := if_pos hmem
  constructor
  · have := transform_fst_perm x
    rwa [heff] at this
  · have := transform_snd_lt x
    rwa [heff] at this

/-- Witness for C7 at the concrete input `"$$"`. -/
theorem C7_multiple_sentinels_witness :
    2 ≤ ['$', '$'].count sentinel ∧
      ((bwt_transform ['$', '$']).1).Perm ['$', '$'] ∧
      (bwt_transform ['$', '$']).2 < (['$', '$'] : List Char).length :=
  ⟨by decide, C7_multiple_sentinels ['$', '$'] (by decide)⟩

/-- C8 counterexample: the index `-1` is not in `[0, 7)`, yet
`bwt_inverse "ANNB$AA" (-1)` returns a sequence (the last row of the final
table) rather than failing. -/
theorem C8_counterexample :
    bwt_inverse "ANNB$AA".toList (-1) = some "NANA$BA".toList := by decide

/-- C8 (amended): `bwt_inverse` fails (returns no sequence) for every index
outside Python's accepted range `[-n, n)`: whenever `index < -n` or
`index ≥ n`, where `n = length transformed`; in particular
`bwt_inverse "ANNB$AA" 7` fails.  Indices in `[-n, 0)` are accepted (C10). -/
theorem C8_index_out_of_range (transformed : List Char) (index : Int)
    (h : index < -(transformed.length : Int) ∨ (transformed.length : Int) ≤ index) :
    bwt_inverse transformed index = none := by
  unfold bwt_inverse pyGet
  rw [length_bwtTable, if_neg (by omega), if_neg (by omega)]

/-- Witness for C8 at the concrete input `("ANNB$AA", 7)`. -/
theorem C8_index_out_of_range_witness :
    ((7 : Int) < -("ANNB$AA".toList.length : Int) ∨
        ("ANNB$AA".toList.length : Int) ≤ 7) ∧
      bwt_inverse "ANNB$AA".toList 7 = none :=
  ⟨by decide, C8_index_out_of_range "ANNB$AA".toList 7 (by decide)⟩

/-- C9: `bwt_transform` applied to the empty string succeeds and returns the
pair `("$", 0)`: the sentinel is appended to the empty input and the single
rotation `"$"` is both the whole last column and the original row. -/
theorem C9_empty_transform : bwt_transform [] = (['$'], 0) := by decide

/-- C10: for every transformed string of length `n ≥ 1` and every index with
`-n ≤ index < 0`, `bwt_inverse` signals no error and returns the row at
position `n + index` of its final sorted table: negative indices are silently
accepted as if they were `index + n`. -/
theorem C10_negative_index (transformed : List Char) (index : Int)
    (hn : 1 ≤ transformed.length)
    (h1 : -(transformed.length : Int) ≤ index) (h2 : index < 0) :
    bwt_inverse transformed index =
        (bwtTable transformed)[((transformed.length : Int) + index).toNat]? ∧
      (bwt_inverse transformed index).isSome := by
  have hidx : ((transformed.length : Int) + index).toNat <
      (bwtTable transformed).length := by
    rw [length_bwtTable]
    omega
  unfold bwt_inverse pyGet
  rw [length_bwtTable, if_neg (by omega), if_pos ⟨h1, h2⟩]
  exact ⟨rfl, by simp [List.getElem?_eq_getElem hidx]⟩

/-- Witness for C10 at the concrete input `("ANNB$AA", -1)`. -/
theorem C10_negative_index_witness :
    1 ≤ "ANNB$AA".toList.length ∧
      -("ANNB$AA".toList.length : Int) ≤ (-1 : Int) ∧ (-1 : Int) < 0 ∧
      (bwt_inverse "ANNB$AA".toList (-1) =
          (bwtTable "ANNB$AA".toList)[(("ANNB$AA".toList.length : Int) + -1).toNat]? ∧
        (bwt_inverse "ANNB$AA".toList (-1)).isSome) :=
  ⟨by decide, by decide, by decide,
    C10_negative_index "ANNB$AA".toList (-1) (by decide) (by decide) (by decide)⟩

end BWT
